import Mathlib

/-!
# debos-minimal: overlay and run actions

A shallow embedding of `actions/overlay_action.go` and `actions/run_action.go`.

Conventions of the embedding.

* A Go `string` holding text is a Lean `String`.  Go measures `len` and
  slices in bytes of the UTF-8 encoding: where the code does so (the label of
  an inline command), the string is taken as its bytes, `bytesOf`, and the
  label handed to command execution is a byte string.
* A Go `error` is `Option String` (`none` is `nil`).
* A run-time failure of Go (index out of range) is the `panicked` outcome.
* Effects (directory listing, path guard call, tree copy, command execution,
  volume registration) are recorded in an event log that is threaded through
  the functions.  The answers of the outside world are functions of the log
  so far, so that a later copy may fail where an earlier one succeeded.
* `log.Printf` lines are not modelled.
* The functions of package `debos` (`RestrictedPath`, `CopyTree`,
  `CleanPathAt`, `NewChrootCommandForContext`, `Command.Run`) and `os.ReadDir`
  are not part of the two files; they are fields of `World`.
-/

namespace Debos

/-! ## Go standard library: `strings` -/

/-- Cut a character list at the first occurrence of `sep`. -/
def cutAt (sep : Char) : List Char → Option (List Char × List Char)
  | [] => none
  | c :: cs =>
    if c = sep then some ([], cs)
    else match cutAt sep cs with
      | none => none
      | some (a, b) => some (c :: a, b)

/-- Split a character list at every occurrence of `sep`. -/
def splitAll (sep : Char) : List Char → List (List Char)
  | [] => [[]]
  | c :: cs =>
    if c = sep then [] :: splitAll sep cs
    else match splitAll sep cs with
      | [] => [[c]]
      | h :: t => (c :: h) :: t

/-- Split a character list into at most `n` pieces at occurrences of `sep`. -/
def splitUpTo (sep : Char) : Nat → List Char → List (List Char)
  | 0, _ => []
  | 1, s => [s]
  | n + 2, s =>
    match cutAt sep s with
    | none => [s]
    | some (a, b) => a :: splitUpTo sep (n + 1) b

/-- Go `strings.Split(s, sep)` for a one-character separator. -/
def strings.Split (s : String) (sep : Char) : List String :=
  (splitAll sep s.data).map String.mk

/-- Go `strings.SplitN(s, sep, n)` for a one-character separator and `n ≥ 0`. -/
def strings.SplitN (s : String) (sep : Char) (n : Nat) : List String :=
  (splitUpTo sep n s.data).map String.mk

/-- Go `strings.Join(elems, sep)`. -/
def strings.Join : List String → String → String
  | [], _ => ""
  | [a], _ => a
  | a :: b :: rest, sep => a ++ sep ++ strings.Join (b :: rest) sep

/-- Replace the first occurrence of `old` in `s` by `new`. -/
def replaceFirst (old new : List Char) : List Char → List Char
  | [] => if old = [] then new else []
  | c :: cs =>
    if old.isPrefixOf (c :: cs) then new ++ (c :: cs).drop old.length
    else c :: replaceFirst old new cs

/-- Go `strings.Replace(s, old, new, 1)`. -/
def strings.Replace1 (s old new : String) : String :=
  ⟨replaceFirst old.data new.data s.data⟩

/-- Go `unicode.IsSpace`. -/
def unicode.IsSpace (c : Char) : Bool :=
  let n := c.toNat
  (9 ≤ n && n ≤ 13) || n == 32 || n == 0x85 || n == 0xA0 || n == 0x1680 ||
  (0x2000 ≤ n && n ≤ 0x200a) || n == 0x2028 || n == 0x2029 || n == 0x202f ||
  n == 0x205f || n == 0x3000

/-- Go `strings.TrimSpace`. -/
def strings.TrimSpace (s : String) : String :=
  ⟨((s.data.dropWhile unicode.IsSpace).reverse.dropWhile unicode.IsSpace).reverse⟩

/-! ## Go strings as bytes

Go's `len(s)` and `s[:n]` count bytes of the UTF-8 encoding, and a slice may
end inside a character. Where the code measures or slices a string, the string
is taken as its bytes (`bytesOf`), and the functions applied to the slice are
the byte-level ones of Go's `unicode/utf8` and `strings`. -/

/-- Go `utf8.AppendRune`: the UTF-8 encoding of one character. -/
def utf8.EncodeRune (c : Char) : List Nat :=
  let r := c.toNat
  if r < 0x80 then [r]
  else if r < 0x800 then [0xC0 + r / 64, 0x80 + r % 64]
  else if r < 0x10000 then [0xE0 + r / 4096, 0x80 + r / 64 % 64, 0x80 + r % 64]
  else [0xF0 + r / 262144, 0x80 + r / 4096 % 64, 0x80 + r / 64 % 64, 0x80 + r % 64]

/-- The UTF-8 encoding of a list of characters. -/
def encodeAll : List Char → List Nat
  | [] => []
  | c :: cs => utf8.EncodeRune c ++ encodeAll cs

/-- The bytes of a string, Go `[]byte(s)`: `len(s)` is `(bytesOf s).length` and
`s[:n]` is `(bytesOf s).take n`. -/
def bytesOf (s : String) : List Nat := encodeAll s.data

/-- Go `utf8.RuneError`. -/
def utf8.RuneError : Nat := 0xFFFD

/-- Go `utf8.RuneSelf`. -/
def utf8.RuneSelf : Nat := 0x80

/-- Go `utf8.UTFMax`. -/
def utf8.UTFMax : Nat := 4

/-- Go `utf8.DecodeRuneInString`: the first rune of a byte string and its width
in bytes; an invalid or truncated encoding gives `(RuneError, 1)`, the empty
string `(RuneError, 0)`. -/
def utf8.DecodeRune : List Nat → Nat × Nat
  | [] => (utf8.RuneError, 0)
  | s0 :: rest =>
    if s0 < utf8.RuneSelf then (s0, 1)
    else if s0 < 0xC2 ∨ 0xF4 < s0 then (utf8.RuneError, 1)
    else
      -- size and accept range of the second byte, from the table `first`
      let sz := if s0 < 0xE0 then 2 else if s0 < 0xF0 then 3 else 4
      let lo := if s0 = 0xE0 then 0xA0 else if s0 = 0xF0 then 0x90 else 0x80
      let hi := if s0 = 0xED then 0x9F else if s0 = 0xF4 then 0x8F else 0xBF
      if rest.length + 1 < sz then (utf8.RuneError, 1)
      else
        let s1 := rest.getD 0 0
        if s1 < lo ∨ hi < s1 then (utf8.RuneError, 1)
        else if sz ≤ 2 then (s0 % 32 * 64 + s1 % 64, 2)
        else
          let s2 := rest.getD 1 0
          if s2 < 0x80 ∨ 0xBF < s2 then (utf8.RuneError, 1)
          else if sz ≤ 3 then (s0 % 16 * 4096 + s1 % 64 * 64 + s2 % 64, 3)
          else
            let s3 := rest.getD 2 0
            if s3 < 0x80 ∨ 0xBF < s3 then (utf8.RuneError, 1)
            else (s0 % 8 * 262144 + s1 % 64 * 4096 + s2 % 64 * 64 + s3 % 64, 4)

/-- Go `utf8.RuneStart`: the byte is not a continuation byte. -/
def utf8.RuneStart (b : Nat) : Bool := b / 64 % 4 != 2

/-- The backward scan of `utf8.DecodeLastRuneInString` for the start of the
last rune. The argument and the result are `start + 1`: while `start ≥ lim`,
stop if `s[start]` starts a rune, else decrement. -/
def utf8.scanStart (s : List Nat) (lim : Nat) : Nat → Nat
  | 0 => 0
  | k + 1 =>
    if k ≥ lim then
      if utf8.RuneStart (s.getD k 0) then k + 1 else utf8.scanStart s lim k
    else k + 1

/-- Go `utf8.DecodeLastRuneInString`: the last rune of a byte string and its
width in bytes. -/
def utf8.DecodeLastRune (s : List Nat) : Nat × Nat :=
  if s.length = 0 then (utf8.RuneError, 0)
  else
    let r := s.getD (s.length - 1) 0
    if r < utf8.RuneSelf then (r, 1)
    else
      let lim := s.length - utf8.UTFMax
      let start := utf8.scanStart s lim (s.length - 1) - 1
      let d := utf8.DecodeRune (s.drop start)
      if start + d.2 ≠ s.length then (utf8.RuneError, 1) else d

/-- Go `unicode.IsSpace` on a rune given by its number. -/
def unicode.IsSpaceRune (n : Nat) : Bool :=
  (9 ≤ n && n ≤ 13) || n == 32 || n == 0x85 || n == 0xA0 || n == 0x1680 ||
  (0x2000 ≤ n && n ≤ 0x200a) || n == 0x2028 || n == 0x2029 || n == 0x202f ||
  n == 0x205f || n == 0x3000

/-- Go `asciiSpace` of package `strings`. -/
def strings.asciiSpace (c : Nat) : Bool :=
  c == 9 || c == 10 || c == 11 || c == 12 || c == 13 || c == 32

/-- Go `indexFunc(s, unicode.IsSpace, false)` on the rest `s` of a string that
starts at index `i`: the index of the first rune that is not a space (`none`
is `-1`). Every step consumes at least one byte, so the fuel `len(s)` is never
exhausted. -/
def strings.indexNotSpace : Nat → List Nat → Nat → Option Nat
  | 0, _, _ => none
  | _ + 1, [], _ => none
  | fuel + 1, b :: bs, i =>
    let d := utf8.DecodeRune (b :: bs)
    if unicode.IsSpaceRune d.1 then strings.indexNotSpace fuel ((b :: bs).drop d.2) (i + d.2)
    else some i

/-- Go `strings.TrimLeftFunc(s, unicode.IsSpace)`. -/
def strings.TrimLeftSpace (s : List Nat) : List Nat :=
  match strings.indexNotSpace s.length s 0 with
  | none => []
  | some i => s.drop i

/-- Go `lastIndexFunc(s, unicode.IsSpace, false)` from index `i` downwards: the
start index of the last rune of `s[:i]` that is not a space (`none` is `-1`). -/
def strings.lastIndexNotSpace (s : List Nat) : Nat → Nat → Option Nat
  | 0, _ => none
  | fuel + 1, i =>
    if i = 0 then none
    else
      let d := utf8.DecodeLastRune (s.take i)
      if unicode.IsSpaceRune d.1 then strings.lastIndexNotSpace s fuel (i - d.2)
      else some (i - d.2)

/-- Go `strings.TrimRightFunc(s, unicode.IsSpace)`. -/
def strings.TrimRightSpace (s : List Nat) : List Nat :=
  match strings.lastIndexNotSpace s s.length s.length with
  | none => []
  | some i =>
    if s.getD i 0 ≥ utf8.RuneSelf then s.take (i + (utf8.DecodeRune (s.drop i)).2)
    else s.take (i + 1)

/-- The second loop of Go `strings.TrimSpace`, on the reversed string: skip
ASCII spaces from the end; at a non-ASCII byte fall back to `TrimRightFunc` on
what is left. -/
def strings.trimSpaceEnd : List Nat → List Nat
  | [] => []
  | c :: cs =>
    if c ≥ utf8.RuneSelf then strings.TrimRightSpace (c :: cs).reverse
    else if strings.asciiSpace c then strings.trimSpaceEnd cs
    else (c :: cs).reverse

/-- Go `strings.TrimSpace` on a byte string: skip ASCII spaces from the start;
at a non-ASCII byte fall back to `TrimFunc` on the rest; otherwise trim the
end. -/
def strings.TrimSpaceBytes (s : List Nat) : List Nat :=
  match s.dropWhile strings.asciiSpace with
  | [] => []
  | c :: cs =>
    if c ≥ utf8.RuneSelf then strings.TrimRightSpace (strings.TrimLeftSpace (c :: cs))
    else strings.trimSpaceEnd (c :: cs).reverse

/-! ## Go standard library: `path` -/

/-- The backward scan of `path.Clean` on a `..` element: starting from write
index `w` (already decremented once), move left while the index is above
`dotdot` and the character at it is not a slash. -/
def cleanBacktrack (buf : List Char) (dotdot : Nat) : Nat → Nat
  | 0 => 0
  | w + 1 =>
    if w + 1 > dotdot ∧ buf.getD (w + 1) '/' ≠ '/' then cleanBacktrack buf dotdot w
    else w + 1

/-- The main loop of Go `path.Clean`: `rest` is the unread part of the path
(`path[r:]`), `out` the output buffer (`out.w` is its length). Every iteration
consumes at least one character, so a fuel of `len(path)` is never exhausted. -/
def cleanLoop (rooted : Bool) : Nat → List Char → List Char → Nat → List Char
  | 0, _, out, _ => out
  | _ + 1, [], out, _ => out
  | fuel + 1, c :: cs, out, dotdot =>
    if c = '/' then
      -- empty path element
      cleanLoop rooted fuel cs out dotdot
    else if c = '.' ∧ (cs = [] ∨ cs.head? = some '/') then
      -- . element
      cleanLoop rooted fuel cs out dotdot
    else if c = '.' ∧ cs.head? = some '.' ∧ (cs.tail = [] ∨ cs.tail.head? = some '/') then
      -- .. element: remove to last /
      if out.length > dotdot then
        cleanLoop rooted fuel cs.tail
          (out.take (cleanBacktrack out dotdot (out.length - 1))) dotdot
      else if !rooted then
        -- cannot backtrack, but not rooted, so append .. element
        let out1 := (if out.length > 0 then out ++ ['/'] else out) ++ ['.', '.']
        cleanLoop rooted fuel cs.tail out1 out1.length
      else
        cleanLoop rooted fuel cs.tail out dotdot
    else
      -- real path element: add slash if needed, copy element
      let out1 :=
        if (rooted ∧ out.length ≠ 1) ∨ (¬ rooted ∧ out.length ≠ 0) then out ++ ['/'] else out
      cleanLoop rooted fuel ((c :: cs).dropWhile (fun x => x ≠ '/'))
        (out1 ++ (c :: cs).takeWhile (fun x => x ≠ '/')) dotdot

/-- Go `path.Clean`. -/
def path.Clean (p : String) : String :=
  match p.data with
  | [] => "."
  | c :: cs =>
    let rooted : Bool := c = '/'
    let out :=
      if rooted then cleanLoop true (cs.length + 1) cs ['/'] 1
      else cleanLoop false (cs.length + 1) (c :: cs) [] 0
    if out.length = 0 then "." else ⟨out⟩

/-- The part of a path up to and including its last slash (`path[:i+1]` with
`i = lastSlash(path)`; empty when there is no slash). -/
def uptoLastSlash : List Char → List Char
  | [] => []
  | c :: cs =>
    match uptoLastSlash cs with
    | [] => if c = '/' then ['/'] else []
    | r => c :: r

/-- The part of a path after its last slash (`path[i+1:]`; the whole path
when there is no slash). -/
def afterLastSlash (s : List Char) : List Char :=
  s.drop (uptoLastSlash s).length

/-- Go `path.Dir`. -/
def path.Dir (p : String) : String :=
  path.Clean ⟨uptoLastSlash p.data⟩

/-- Go `path.Base`. -/
def path.Base (p : String) : String :=
  if p = "" then "."
  else
    -- strip trailing slashes
    let q := (p.data.reverse.dropWhile (fun x => x = '/')).reverse
    -- find the last element
    let q := afterLastSlash q
    -- if empty now, it had only slashes
    if q = [] then "/" else ⟨q⟩

/-- The buffer built by Go `path.Join` before cleaning. -/
def joinBuf : List Char → List String → List Char
  | buf, [] => buf
  | buf, e :: es =>
    if buf.length > 0 ∨ e ≠ "" then
      joinBuf ((if buf.length > 0 then buf ++ ['/'] else buf) ++ e.data) es
    else joinBuf buf es

/-- Go `path.Join`. -/
def path.Join (elem : List String) : String :=
  if (elem.map String.length).sum = 0 then ""
  else path.Clean ⟨joinBuf [] elem⟩

/-! ## Data model -/

/-- Go `error`: `none` is `nil`, `some msg` an error with that message. -/
abbrev GoError := Option String

/-- What a call does: it returns its `error` result, or Go stops it with a
run-time failure. -/
inductive Outcome where
  | returned (err : GoError)
  | panicked (msg : String)
  deriving DecidableEq, Repr

/-- Modelled from the spec: `debos.Command` is declared outside the two source
files. The spec gives it an environment key/value mapping, a set of bind mounts
(host path to target path) and a chroot flag; the program arguments are handed
to `Command.Run`. `AddEnvKey` and `AddBindMount` append to the two lists. -/
structure Command where
  Chroot : Bool
  extraEnv : List (String × String)
  bindMounts : List (String × String)
  deriving DecidableEq, Repr

/-- The zero value `debos.Command{}`. -/
def Command.zero : Command := ⟨false, [], []⟩

/-- The call `cmd.AddEnvKey(key, value)`. -/
def Command.AddEnvKey (cmd : Command) (key value : String) : Command :=
  { cmd with extraEnv := cmd.extraEnv ++ [(key, value)] }

/-- The call `cmd.AddBindMount(source, target)`. -/
def Command.AddBindMount (cmd : Command) (source target : String) : Command :=
  { cmd with bindMounts := cmd.bindMounts ++ [(source, target)] }

/-- Modelled from the spec: `debos.DebosContext` is declared outside the two
source files. The fields are the ones the two actions read; `Origin` is the
origin-registry lookup returning (path, found). -/
structure DebosContext where
  RecipeDir : String
  Artifactdir : String
  Rootdir : String
  Image : String
  ImageMntDir : String
  Origin : String → String × Bool

/-- One entry of a directory listing (`os.DirEntry`). -/
structure DirEntry where
  Name : String
  IsDir : Bool
  deriving DecidableEq, Repr

/-- The effects of the two actions on the outside world. -/
inductive Event where
  | readDir (root : String)
  | guard (pfx dest : String)
  | copyTree (src dst : String)
  | exec (cmd : Command) (label : List Nat) (cmdline : List String)
  | addVolume (dir : String)
  deriving DecidableEq, Repr

/-- The functions the actions call that live outside the two source files.
Those that touch the filesystem or run a process answer depending on the event
log so far. -/
structure World where
  ReadDir : List Event → String → Except String (List DirEntry)
  RestrictedPath : String → String → Except String String
  CopyTree : List Event → String → String → GoError
  CleanPathAt : String → String → String
  NewChrootCommandForContext : DebosContext → Command
  CommandRun : List Event → Command → List Nat → List String → GoError

/-! ## `actions/overlay_action.go` -/

structure OverlayAction where
  Origin : String
  Source : String
  Destination : String
  deriving DecidableEq, Repr

/-- `OverlayAction.Verify`. -/
def OverlayAction.Verify (W : World) (overlay : OverlayAction) (context : DebosContext) :
    GoError :=
  match W.RestrictedPath context.Rootdir overlay.Destination with
  | .error err => some err
  | .ok _ => none

/-- `listDirectories`: the names of the directory entries of `root`, in listing
order; the call to `os.ReadDir` is logged. -/
def listDirectories (W : World) (root : String) (tr : List Event) :
    Except String (List String) × List Event :=
  match W.ReadDir tr root with
  | .error err => (.error err, tr ++ [Event.readDir root])
  | .ok entries =>
    (.ok ((entries.filter (fun entry => entry.IsDir)).map (fun entry => entry.Name)),
      tr ++ [Event.readDir root])

/-- `isGlob`: `path[len(path)-1] == '*'`; indexing an empty string is a
run-time failure (`none`). -/
def isGlob (path : String) : Option Bool :=
  match path.data.getLast? with
  | none => none
  | some lastChar => some (lastChar == '*')

/-- `getGlobPath`: `path[:len(path)-1]`; slicing an empty string is a run-time
failure (`none`). -/
def getGlobPath (path : String) : Option String :=
  if path.data = [] then none else some ⟨path.data.dropLast⟩

/-- The `for _, val := range overlay_sources` loop of `OverlayAction.Run`. -/
def overlayLoop (W : World) (overlay : OverlayAction) (context : DebosContext)
    (origin : String) : List String → List Event → Outcome × List Event
  | [], tr => (.returned none, tr)
  | val :: rest, tr =>
    let sourcedir := path.Join [origin, val]
    let tr1 := tr ++ [Event.guard context.Rootdir overlay.Destination]
    match W.RestrictedPath context.Rootdir overlay.Destination with
    | .error err => (.returned (some err), tr1)
    | .ok destination =>
      match W.CopyTree tr1 sourcedir destination with
      | some err => (.returned (some err), tr1 ++ [Event.copyTree sourcedir destination])
      | none =>
        overlayLoop W overlay context origin rest (tr1 ++ [Event.copyTree sourcedir destination])

/-- `OverlayAction.Run`, started with event log `tr`. -/
def OverlayAction.Run (W : World) (overlay : OverlayAction) (context : DebosContext)
    (tr : List Event) : Outcome × List Event :=
  -- trying to get a filename from exports first
  if overlay.Origin.length > 0 ∧ (context.Origin overlay.Origin).2 = false then
    (.returned (some ("Origin not found '" ++ overlay.Origin ++ "'")), tr)
  else
    let origin :=
      if overlay.Origin.length > 0 then (context.Origin overlay.Origin).1 else context.RecipeDir
    match isGlob overlay.Source with
    | none => (.panicked "index out of range [-1]", tr)
    | some true =>
      match getGlobPath overlay.Source with
      | none => (.panicked "slice bounds out of range [:-1]", tr)
      | some root =>
        match listDirectories W root tr with
        | (.error err, tr1) => (.returned (some err), tr1)
        | (.ok overlay_sources, tr1) => overlayLoop W overlay context origin overlay_sources tr1
    | some false =>
      let sourcedir := path.Join [origin, overlay.Source]
      let tr1 := tr ++ [Event.guard context.Rootdir overlay.Destination]
      match W.RestrictedPath context.Rootdir overlay.Destination with
      | .error err => (.returned (some err), tr1)
      | .ok destination =>
        (.returned (W.CopyTree tr1 sourcedir destination),
          tr1 ++ [Event.copyTree sourcedir destination])

/-! ## `actions/run_action.go` -/

def maxLabelLength : Nat := 40

structure RunAction where
  Chroot : Bool
  PostProcess : Bool
  Script : String
  Command : String
  Label : String
  deriving DecidableEq, Repr

/-- `RunAction.Verify`. -/
def RunAction.Verify (run : RunAction) (_context : DebosContext) : GoError :=
  if run.PostProcess && run.Chroot then
    some "Cannot run postprocessing in the chroot"
  else if run.Script = "" ∧ run.Command = "" then
    some "Script and Command both cannot be empty"
  else none

/-- `RunAction.PreMachine`: the action after the call (its `Script` is
rewritten), the returned error and the event log; `m.AddVolume` is logged. -/
def RunAction.PreMachine (W : World) (run : RunAction) (context : DebosContext)
    (tr : List Event) : RunAction × GoError × List Event :=
  if run.Script = "" then (run, none, tr)
  else
    let run1 := { run with Script := W.CleanPathAt run.Script context.RecipeDir }
    -- expect we have no blank spaces in path
    let scriptpath := strings.Split run1.Script ' '
    if !run1.PostProcess then
      (run1, none, tr ++ [Event.addVolume (path.Dir (scriptpath.headD ""))])
    else (run1, none, tr)

/-- The command, label and command line that `RunAction.doRun` hands to
`cmd.Run` (everything of `doRun` before its last line). The label is kept as
its bytes: `len(label)` and `label[:maxLabelLength]` count bytes, and the cut
may fall inside a character. -/
def RunAction.doRunCall (W : World) (run : RunAction) (context : DebosContext) :
    Debos.Command × List Nat × List String :=
  let cmd : Debos.Command :=
    if run.Chroot then W.NewChrootCommandForContext context else Command.zero
  let (cmd, cmdline, label) : Debos.Command × List String × List Nat :=
    if run.Script ≠ "" then
      let script := strings.SplitN run.Script ' ' 2
      let script := script.set 0 (W.CleanPathAt (script.headD "") context.RecipeDir)
      let (cmd, script) : Debos.Command × List String :=
        if run.Chroot then
          let scriptpath := path.Dir (script.headD "")
          (cmd.AddBindMount scriptpath "/tmp/script",
            script.set 0 (strings.Replace1 (script.headD "") scriptpath "/tmp/script"))
        else (cmd, script)
      (cmd, [strings.Join script " "], bytesOf (path.Base run.Script))
    else
      -- remove leading and trailing spaces and newlines before splitting
      let commands := strings.Split (strings.TrimSpace run.Command) '\n'
      let label := bytesOf (commands.headD "")
      -- make it clear a long or a multi-line command is being run
      let label :=
        if label.length > maxLabelLength then
          strings.TrimSpaceBytes (label.take maxLabelLength) ++ bytesOf "..."
        else if commands.length > 1 then label ++ bytesOf "..."
        else label
      (cmd, [run.Command], label)
  let label := if run.Label ≠ "" then bytesOf run.Label else label
  -- command/script with options passed as single string
  let cmdline := ["sh", "-c"] ++ cmdline
  let cmd :=
    if !run.Chroot then
      (cmd.AddEnvKey "RECIPEDIR" context.RecipeDir).AddEnvKey "ARTIFACTDIR" context.Artifactdir
    else cmd
  let cmd :=
    if !run.PostProcess then
      let cmd :=
        if !run.Chroot then
          let cmd := cmd.AddEnvKey "ROOTDIR" context.Rootdir
          if context.ImageMntDir ≠ "" then cmd.AddEnvKey "IMAGEMNTDIR" context.ImageMntDir
          else cmd
        else cmd
      if context.Image ≠ "" then cmd.AddEnvKey "IMAGE" context.Image else cmd
    else cmd
  (cmd, label, cmdline)

/-- `RunAction.doRun`: build the call and execute it with `cmd.Run`; the
execution is logged. -/
def RunAction.doRun (W : World) (run : RunAction) (context : DebosContext)
    (tr : List Event) : GoError × List Event :=
  let call := run.doRunCall W context
  (W.CommandRun tr call.1 call.2.1 call.2.2, tr ++ [Event.exec call.1 call.2.1 call.2.2])

/-- `RunAction.Run`. -/
def RunAction.Run (W : World) (run : RunAction) (context : DebosContext)
    (tr : List Event) : GoError × List Event :=
  if run.PostProcess then
    -- this runs in postprocessing instead
    (none, tr)
  else run.doRun W context tr

/-- `RunAction.PostMachine`. -/
def RunAction.PostMachine (W : World) (run : RunAction) (context : DebosContext)
    (tr : List Event) : GoError × List Event :=
  if !run.PostProcess then (none, tr)
  else run.doRun W context tr


/-! ## Example world

A concrete context and world on which the general statements are exercised. -/

/-- A context with one registered origin, `artifacts`. -/
def sampleContext : DebosContext where
  RecipeDir := "/recipe"
  Artifactdir := "/artifacts"
  Rootdir := "/scratch/root"
  Image := "disk.img"
  ImageMntDir := "/scratch/mnt"
  Origin := fun name => if name = "artifacts" then ("/artifacts", true) else ("", false)

/-- A directory listing: directory `a`, plain file `c`, directory `b`. -/
def sampleListing : List DirEntry := [⟨"a", true⟩, ⟨"c", false⟩, ⟨"b", true⟩]

/-- A world whose directory listing is `a/`, file `c`, `b/`, whose guard rejects
destinations containing `..`, whose copies and commands succeed and whose path
cleaning leaves paths unchanged. -/
def sampleWorld : World where
  ReadDir := fun _ _ => .ok sampleListing
  RestrictedPath := fun root dest =>
    if dest = "../etc" then .error "The resulting path points outside of prefix"
    else .ok (root ++ dest)
  CopyTree := fun _ _ _ => none
  CleanPathAt := fun p _ => p
  NewChrootCommandForContext := fun _ => ⟨true, [], []⟩
  CommandRun := fun _ _ _ _ => none

/-- A chroot action running a script with one argument. -/
def chrootScriptRun : RunAction := ⟨true, false, "/recipe/sub/script.sh arg1", "", ""⟩

/-- A host-mode action running an inline command. -/
def hostCommandRun : RunAction := ⟨false, false, "", "echo hi", ""⟩

/-- A host-mode postprocess action running an inline command. -/
def postprocessRun : RunAction := ⟨false, true, "", "echo hi", ""⟩

/-- An overlay with a wildcard source, taken from the recipe directory. -/
def wildcardOverlay : OverlayAction := ⟨"", "overlays/*", "/etc"⟩

/-- An overlay naming an origin that the sample context does not register. -/
def unknownOriginOverlay : OverlayAction := ⟨"missing", "overlays/*", "/etc"⟩

/-! ## Auxiliary definitions -/

/-- The copies recorded in an event log, as (source, destination) pairs. -/
def copies : List Event → List (String × String)
  | [] => []
  | Event.copyTree src dst :: rest => (src, dst) :: copies rest
  | _ :: rest => copies rest

/-- The environment of every command executed in an event log. -/
def execEnvs : List Event → List (List (String × String))
  | [] => []
  | Event.exec cmd _ _ :: rest => cmd.extraEnv :: execEnvs rest
  | _ :: rest => execEnvs rest

/-- The events of the wildcard loop over the directory names `vals` when the
guard answers `d`: a guard call and a copy per name. -/
def loopEvents (root dest origin d : String) : List String → List Event
  | [] => []
  | val :: rest =>
    Event.guard root dest :: Event.copyTree (path.Join [origin, val]) d ::
      loopEvents root dest origin d rest

/-- The first line of a text: its characters before the first newline. -/
def firstLine (s : String) : String :=
  ⟨s.data.takeWhile (fun c => c ≠ '\n')⟩

/-- The part of a text before its first space. -/
def beforeSpace (s : String) : String :=
  ⟨s.data.takeWhile (fun c => c ≠ ' ')⟩

/-- The script path as `doRun` puts it on the command line: `p` cleaned against
the recipe directory and, in chroot mode, with its directory replaced by the
bind-mount location. -/
def resolvedScript (W : World) (run : RunAction) (context : DebosContext) (p : String) :
    String :=
  if run.Chroot then
    strings.Replace1 (W.CleanPathAt p context.RecipeDir)
      (path.Dir (W.CleanPathAt p context.RecipeDir)) "/tmp/script"
  else W.CleanPathAt p context.RecipeDir

/-- The labels of the commands executed in an event log. -/
def execLabels : List Event → List (List Nat)
  | [] => []
  | Event.exec _ label _ :: rest => label :: execLabels rest
  | _ :: rest => execLabels rest

/-- An overlay of a registered origin with no source. -/
def emptySourceOverlay : OverlayAction := ⟨"artifacts", "", "/etc"⟩

/-- A host-mode action whose single-line command has 55 characters. -/
def longCommandRun : RunAction :=
  ⟨false, false, "", "tar -C /scratch/root -xzf /artifacts/rootfs-base.tar.gz", ""⟩

/-- A host-mode action whose command has two lines, with blank space around. -/
def twoLineCommandRun : RunAction :=
  ⟨false, false, "", "  make install\nmake clean\n", ""⟩

/-- A host-mode action whose command, once trimmed, is one line of exactly 40
characters. -/
def fortyCharCommandRun : RunAction :=
  ⟨false, false, "", "  systemctl enable systemd-networkd.socket\n", ""⟩

/-- A host-mode action whose single-line command has 45 characters and 46
bytes: its first character takes two bytes. -/
def accentedLongRun : RunAction :=
  ⟨false, false, "", "écho 0123456789 0123456789 0123456789 abcdefg", ""⟩

/-- A host-mode action whose single-line command is 30 times `é`: 30 characters,
60 bytes. -/
def accentedShortRun : RunAction :=
  ⟨false, false, "", ⟨List.replicate 30 'é'⟩, ""⟩

/-- A host-mode action whose command has 30 times `é` as first line and `sync`
as second line. -/
def accentedTwoLineRun : RunAction :=
  ⟨false, false, "", ⟨List.replicate 30 'é' ++ ['\n', 's', 'y', 'n', 'c']⟩, ""⟩

/-- A chroot script action with an explicit label. -/
def labelledRun : RunAction :=
  ⟨true, false, "/recipe/sub/script.sh arg1", "", "setup"⟩

/-- A host-mode script action whose argument is a device path. -/
def deviceScriptRun : RunAction := ⟨false, false, "/recipe/sub/script.sh /dev/sda", "", ""⟩

/-- A host-mode script action below the recipe directory. -/
def hostScriptRun : RunAction := ⟨false, false, "/recipe/sub/script.sh arg1", "", ""⟩

/-- A literal overlay whose destination leaves the root directory. -/
def escapingLiteralOverlay : OverlayAction := ⟨"", "overlays", "../etc"⟩

/-! ## Auxiliary lemmas -/

theorem length_dropWhile_le (q : Char → Bool) (l : List Char) :
    (l.dropWhile q).length ≤ l.length := by
  induction l with
  | nil => simp
  | cons x xs ih =>
    simp only [List.dropWhile_cons]
    split
    · exact Nat.le_succ_of_le ih
    · exact Nat.le_refl _

/-- The loop of `path.Clean` does not depend on its fuel once the fuel covers
the unread part of the path: the fuel `len(path)` used by `path.Clean` is never
exhausted. -/
theorem cleanLoop_fuel (rooted : Bool) :
    ∀ (fuel1 fuel2 : Nat) (rest out : List Char) (dotdot : Nat),
      rest.length ≤ fuel1 → rest.length ≤ fuel2 →
      cleanLoop rooted fuel1 rest out dotdot = cleanLoop rooted fuel2 rest out dotdot
  | 0, fuel2, rest, out, dotdot, h1, _ => by
    have hrest : rest = [] := List.length_eq_zero.mp (Nat.le_zero.mp h1)
    subst hrest
    cases fuel2 <;> simp [cleanLoop]
  | n + 1, 0, rest, out, dotdot, _, h2 => by
    have hrest : rest = [] := List.length_eq_zero.mp (Nat.le_zero.mp h2)
    subst hrest
    simp [cleanLoop]
  | n + 1, m + 1, [], out, dotdot, _, _ => by simp [cleanLoop]
  | n + 1, m + 1, c :: cs, out, dotdot, h1, h2 => by
    have hn : cs.length ≤ n := Nat.le_of_succ_le_succ h1
    have hm : cs.length ≤ m := Nat.le_of_succ_le_succ h2
    have htn : cs.tail.length ≤ n := Nat.le_trans (by simp) hn
    have htm : cs.tail.length ≤ m := Nat.le_trans (by simp) hm
    unfold cleanLoop
    by_cases hc : c = '/'
    · simp only [hc, if_true]
      exact cleanLoop_fuel rooted n m cs out dotdot hn hm
    · have hd : ((c :: cs).dropWhile (fun x => decide (x ≠ '/'))).length ≤ cs.length := by
        have : (c :: cs).dropWhile (fun x => decide (x ≠ '/')) =
            cs.dropWhile (fun x => decide (x ≠ '/')) := by
          simp [List.dropWhile_cons, hc]
        rw [this]
        exact length_dropWhile_le _ _
      simp only [hc, if_false]
      split
      · exact cleanLoop_fuel rooted n m cs out dotdot hn hm
      · split
        · split
          · exact cleanLoop_fuel rooted n m _ _ _ htn htm
          · split
            · exact cleanLoop_fuel rooted n m _ _ _ htn htm
            · exact cleanLoop_fuel rooted n m _ _ _ htn htm
        · exact cleanLoop_fuel rooted n m _ _ _ (Nat.le_trans hd hn) (Nat.le_trans hd hm)

theorem ite_snd_pos {c : Prop} [Decidable c] {p q : Nat × Nat} (hp : 1 ≤ p.2) (hq : 1 ≤ q.2) :
    1 ≤ (if c then p else q).2 := by
  split <;> assumption

theorem decodeRune_size_pos (b : Nat) (bs : List Nat) : 1 ≤ (utf8.DecodeRune (b :: bs)).2 := by
  simp only [utf8.DecodeRune]
  repeat' apply ite_snd_pos
  all_goals simp

/-- The forward scan for a non-space rune does not depend on its fuel once the
fuel covers the string. -/
theorem indexNotSpace_fuel :
    ∀ (fuel1 fuel2 : Nat) (s : List Nat) (i : Nat), s.length ≤ fuel1 → s.length ≤ fuel2 →
      strings.indexNotSpace fuel1 s i = strings.indexNotSpace fuel2 s i
  | 0, 0, [], _, _, _ => rfl
  | 0, _ + 1, [], _, _, _ => rfl
  | _ + 1, 0, [], _, _, _ => rfl
  | _ + 1, _ + 1, [], _, _, _ => rfl
  | 0, _, b :: bs, _, h1, _ => by simp at h1
  | _ + 1, 0, b :: bs, _, _, h2 => by simp at h2
  | n + 1, m + 1, b :: bs, i, h1, h2 => by
    have hpos := decodeRune_size_pos b bs
    have hlen : ((b :: bs).drop (utf8.DecodeRune (b :: bs)).2).length ≤ bs.length := by
      simp only [List.length_drop, List.length_cons]
      omega
    simp only [List.length_cons] at h1 h2
    unfold strings.indexNotSpace
    dsimp only
    split
    · exact indexNotSpace_fuel n m _ _ (by omega) (by omega)
    · rfl

theorem scanStart_le (s : List Nat) (lim : Nat) : ∀ k, utf8.scanStart s lim k ≤ k
  | 0 => by simp [utf8.scanStart]
  | k + 1 => by
    unfold utf8.scanStart
    split
    · split
      · exact Nat.le_refl _
      · exact Nat.le_succ_of_le (scanStart_le s lim k)
    · exact Nat.le_refl _

theorem decodeLastRune_size_pos (s : List Nat) (hs : s ≠ []) :
    1 ≤ (utf8.DecodeLastRune s).2 := by
  have hlen : 0 < s.length := List.length_pos.mpr hs
  unfold utf8.DecodeLastRune
  dsimp only
  rw [if_neg (by omega)]
  split
  · simp
  · split
    · simp
    · rename_i h
      have hle := scanStart_le s (s.length - utf8.UTFMax) (s.length - 1)
      simp only [ne_eq, Decidable.not_not] at h
      omega

/-- The backward scan for a non-space rune does not depend on its fuel once the
fuel covers the index it starts from. -/
theorem lastIndexNotSpace_fuel (s : List Nat) :
    ∀ (fuel1 fuel2 i : Nat), i ≤ s.length → i ≤ fuel1 → i ≤ fuel2 →
      strings.lastIndexNotSpace s fuel1 i = strings.lastIndexNotSpace s fuel2 i
  | 0, fuel2, i, _, h1, _ => by
    have hi : i = 0 := by omega
    subst hi
    cases fuel2 <;> simp [strings.lastIndexNotSpace]
  | n + 1, 0, i, _, _, h2 => by
    have hi : i = 0 := by omega
    subst hi
    simp [strings.lastIndexNotSpace]
  | n + 1, m + 1, i, hi, h1, h2 => by
    unfold strings.lastIndexNotSpace
    by_cases h0 : i = 0
    · simp [h0]
    · rw [if_neg h0, if_neg h0]
      have hne : s.take i ≠ [] := by
        intro h
        have hmin : min i s.length = 0 := by
          rw [← List.length_take, h]
          rfl
        omega
      have hpos := decodeLastRune_size_pos (s.take i) hne
      dsimp only
      split
      · exact lastIndexNotSpace_fuel s n m _ (by omega) (by omega) (by omega)
      · rfl

/-- On ASCII text a character is one byte: the length in bytes is the length
in characters. -/
theorem bytesOf_length_ascii (s : String) (h : ∀ c ∈ s.data, c.toNat < 0x80) :
    (bytesOf s).length = s.length := by
  cases s with
  | mk l =>
    simp only [bytesOf, String.length]
    induction l with
    | nil => rfl
    | cons c cs ih =>
      have hc : c.toNat < 0x80 := h c (by simp)
      have hcs : ∀ x ∈ cs, x.toNat < 0x80 := fun x hx => h x (by simp [hx])
      simp [encodeAll, utf8.EncodeRune, hc, ih hcs]

theorem string_length_pos_iff (s : String) : s.length > 0 ↔ s ≠ "" := by
  cases s with
  | mk l =>
    cases l with
    | nil => simp [String.length]
    | cons c cs =>
      simp only [String.length, List.length_cons, gt_iff_lt, Nat.zero_lt_succ, true_iff]
      intro h
      exact absurd (congrArg String.data h) (by simp)

theorem mem_copies {src dst : String} {evs : List Event} :
    (src, dst) ∈ copies evs ↔ Event.copyTree src dst ∈ evs := by
  induction evs with
  | nil => simp [copies]
  | cons x xs ih => cases x <;> simp [copies, ih]

theorem splitAll_ne_nil (sep : Char) (l : List Char) : splitAll sep l ≠ [] := by
  cases l with
  | nil => simp [splitAll]
  | cons c cs =>
    unfold splitAll
    split
    · simp
    · split <;> simp

/-- The first piece of a split is the text before the first separator. -/
theorem splitAll_head (sep : Char) (l : List Char) :
    (splitAll sep l).headD [] = l.takeWhile (fun c => c ≠ sep) := by
  induction l with
  | nil => simp [splitAll]
  | cons c cs ih =>
    unfold splitAll
    by_cases hc : c = sep
    · simp [hc]
    · rw [if_neg hc]
      cases hsp : splitAll sep cs with
      | nil => exact absurd hsp (splitAll_ne_nil sep cs)
      | cons h t =>
        rw [hsp] at ih
        simp only [List.headD_cons] at ih
        simp [List.takeWhile_cons, hc, ih]

/-- A text without the separator splits into itself. -/
theorem splitAll_of_not_mem (sep : Char) (l : List Char) (h : sep ∉ l) :
    splitAll sep l = [l] := by
  induction l with
  | nil => simp [splitAll]
  | cons c cs ih =>
    have hc : c ≠ sep := fun e => h (by simp [e])
    have hcs : sep ∉ cs := fun e => h (by simp [e])
    unfold splitAll
    rw [if_neg hc, ih hcs]

/-- A text containing the separator splits into more than one piece. -/
theorem splitAll_length_of_mem (sep : Char) (l : List Char) (h : sep ∈ l) :
    1 < (splitAll sep l).length := by
  induction l with
  | nil => simp at h
  | cons c cs ih =>
    unfold splitAll
    by_cases hc : c = sep
    · rw [if_pos hc]
      have := List.length_pos.mpr (splitAll_ne_nil sep cs)
      simp only [List.length_cons]
      omega
    · rw [if_neg hc]
      have hcs : sep ∈ cs := by
        rcases List.mem_cons.mp h with e | e
        · exact absurd e.symm hc
        · exact e
      have := ih hcs
      cases hsp : splitAll sep cs with
      | nil => exact absurd hsp (splitAll_ne_nil sep cs)
      | cons a t =>
        rw [hsp] at this
        simpa using this

theorem cutAt_of_not_mem (sep : Char) (l : List Char) (h : sep ∉ l) : cutAt sep l = none := by
  induction l with
  | nil => rfl
  | cons c cs ih =>
    have hc : c ≠ sep := fun e => h (by simp [e])
    have hcs : sep ∉ cs := fun e => h (by simp [e])
    unfold cutAt
    rw [if_neg hc, ih hcs]

theorem cutAt_append (sep : Char) (l r : List Char) (h : sep ∉ l) :
    cutAt sep (l ++ sep :: r) = some (l, r) := by
  induction l with
  | nil => simp [cutAt]
  | cons c cs ih =>
    have hc : c ≠ sep := fun e => h (by simp [e])
    have hcs : sep ∉ cs := fun e => h (by simp [e])
    simp only [List.cons_append]
    unfold cutAt
    rw [if_neg hc, ih hcs]

theorem split_headD (s : String) (sep : Char) :
    (strings.Split s sep).headD "" = ⟨s.data.takeWhile (fun c => c ≠ sep)⟩ := by
  unfold strings.Split
  have h := splitAll_head sep s.data
  cases hsp : splitAll sep s.data with
  | nil => exact absurd hsp (splitAll_ne_nil sep s.data)
  | cons a t =>
    rw [hsp] at h
    simp only [List.headD_cons] at h
    simp [h]

theorem takeWhile_ne_of_not_mem (sep : Char) (l : List Char) (h : sep ∉ l) :
    l.takeWhile (fun c => c ≠ sep) = l := by
  induction l with
  | nil => rfl
  | cons c cs ih =>
    have hc : c ≠ sep := fun e => h (by simp [e])
    have hcs : sep ∉ cs := fun e => h (by simp [e])
    rw [List.takeWhile_cons, ih hcs]
    simp [hc]

theorem SplitN_two_of_not_mem (s : String) (h : ' ' ∉ s.data) :
    strings.SplitN s ' ' 2 = [s] := by
  simp [strings.SplitN, splitUpTo, cutAt_of_not_mem ' ' s.data h]

theorem SplitN_two_append (P A : String) (h : ' ' ∉ P.data) :
    strings.SplitN (P ++ " " ++ A) ' ' 2 = [P, A] := by
  have hd : (P ++ " " ++ A).data = P.data ++ ' ' :: A.data := by
    simp [String.data_append]
  simp [strings.SplitN, splitUpTo, hd, cutAt_append ' ' P.data A.data h]

/-- The label `doRun` derives for an inline command when no label is set. -/
theorem doRunCall_label_command (W : World) (run : RunAction) (context : DebosContext)
    (hs : run.Script = "") (hl : run.Label = "") :
    (run.doRunCall W context).2.1 =
      (if (bytesOf (firstLine (strings.TrimSpace run.Command))).length > maxLabelLength then
        strings.TrimSpaceBytes
          ((bytesOf (firstLine (strings.TrimSpace run.Command))).take maxLabelLength) ++
          bytesOf "..."
      else if (strings.Split (strings.TrimSpace run.Command) '\n').length > 1 then
        bytesOf (firstLine (strings.TrimSpace run.Command)) ++ bytesOf "..."
      else bytesOf (firstLine (strings.TrimSpace run.Command))) := by
  unfold RunAction.doRunCall
  simp only [hs, hl, ne_eq, not_true_eq_false, if_false, split_headD]
  rfl

theorem loopEvents_append (root dest origin d : String) (xs ys : List String) :
    loopEvents root dest origin d (xs ++ ys) =
      loopEvents root dest origin d xs ++ loopEvents root dest origin d ys := by
  induction xs with
  | nil => rfl
  | cons x xs ih => simp [loopEvents, ih]

/-- C2: `RunAction.Verify` returns an error whenever `Chroot` and `PostProcess`
are both true, and returns an error whenever `Script` and `Command` are both
empty. -/
theorem C2_verify_rejects (run : RunAction) (context : DebosContext) :
    (run.Chroot = true ∧ run.PostProcess = true →
      run.Verify context = some "Cannot run postprocessing in the chroot") ∧
    (run.Script = "" ∧ run.Command = "" → ∃ err, run.Verify context = some err) := by
  constructor
  · rintro ⟨hc, hp⟩
    simp [RunAction.Verify, hc, hp]
  · rintro ⟨hs, hc⟩
    unfold RunAction.Verify
    by_cases h : (run.PostProcess && run.Chroot) = true
    · exact ⟨_, by rw [if_pos h]⟩
    · exact ⟨_, by rw [if_neg h, if_pos ⟨hs, hc⟩]⟩

/-- C3 (evaluation at the failing input): an action with both a script and a
command set passes `RunAction.Verify`. -/
theorem C3_verify_accepts_script_with_command (context : DebosContext) :
    RunAction.Verify ⟨false, false, "setup.sh", "echo hi", ""⟩ context = none := by
  simp [RunAction.Verify]

/-- C4: with `PostProcess` set, `Run` returns nil and leaves the event log
untouched while `PostMachine` is `doRun`; without it, `Run` is `doRun` and
`PostMachine` returns nil and leaves the log untouched; `doRun` executes one
command, so `Run` followed by `PostMachine` executes exactly one command, the
one `doRun` builds. -/
theorem C4_run_postmachine_once (W : World) (run : RunAction) (context : DebosContext)
    (tr : List Event) :
    (run.PostProcess = true →
      run.Run W context tr = (none, tr) ∧
      run.PostMachine W context tr = run.doRun W context tr) ∧
    (run.PostProcess = false →
      run.Run W context tr = run.doRun W context tr ∧
      run.PostMachine W context tr = (none, tr)) ∧
    (run.doRun W context tr).2 =
      tr ++ [Event.exec (run.doRunCall W context).1 (run.doRunCall W context).2.1
        (run.doRunCall W context).2.2] ∧
    (run.PostMachine W context (run.Run W context tr).2).2 =
      tr ++ [Event.exec (run.doRunCall W context).1 (run.doRunCall W context).2.1
        (run.doRunCall W context).2.2] := by
  cases hp : run.PostProcess <;>
    simp [RunAction.Run, RunAction.PostMachine, RunAction.doRun, hp]

/-! ## Run action: environment of the executed command -/

/-- The environment `doRun` passes on: what the command started with, then
`RECIPEDIR` and `ARTIFACTDIR` in host mode, then, unless postprocessing,
`ROOTDIR` and (when set) `IMAGEMNTDIR` in host mode and (when set) `IMAGE`. -/
theorem doRunCall_extraEnv (W : World) (run : RunAction) (context : DebosContext) :
    (run.doRunCall W context).1.extraEnv =
      (if run.Chroot then (W.NewChrootCommandForContext context).extraEnv else []) ++
      (if run.Chroot then [] else
        [("RECIPEDIR", context.RecipeDir), ("ARTIFACTDIR", context.Artifactdir)]) ++
      (if run.PostProcess then [] else
        (if run.Chroot then [] else
          [("ROOTDIR", context.Rootdir)] ++
          (if context.ImageMntDir = "" then [] else [("IMAGEMNTDIR", context.ImageMntDir)])) ++
        (if context.Image = "" then [] else [("IMAGE", context.Image)])) := by
  unfold RunAction.doRunCall
  cases run.Chroot <;> cases run.PostProcess <;>
    by_cases h1 : run.Script = "" <;> by_cases h2 : context.ImageMntDir = "" <;>
    by_cases h3 : context.Image = "" <;>
    simp [h1, h2, h3, Command.AddEnvKey, Command.AddBindMount, Command.zero]

/-- C5: in chroot mode the environment of the command `doRun` executes is the
one the chroot command constructor supplied followed by entries whose key is
none of `RECIPEDIR`, `ARTIFACTDIR`, `ROOTDIR`, `IMAGEMNTDIR`. -/
theorem C5_chroot_env_no_host_keys (W : World) (run : RunAction) (context : DebosContext)
    (tr : List Event) (hc : run.Chroot = true) :
    ∃ cmd label cmdline added,
      (run.doRun W context tr).2 = tr ++ [Event.exec cmd label cmdline] ∧
      cmd.extraEnv = (W.NewChrootCommandForContext context).extraEnv ++ added ∧
      ∀ kv ∈ added, kv.1 ≠ "RECIPEDIR" ∧ kv.1 ≠ "ARTIFACTDIR" ∧ kv.1 ≠ "ROOTDIR" ∧
        kv.1 ≠ "IMAGEMNTDIR" := by
  refine ⟨(run.doRunCall W context).1, (run.doRunCall W context).2.1,
    (run.doRunCall W context).2.2,
    if run.PostProcess then [] else
      if context.Image = "" then [] else [("IMAGE", context.Image)], rfl, ?_, ?_⟩
  · rw [doRunCall_extraEnv, hc]
    cases run.PostProcess <;> simp
  · intro kv hkv
    cases hp : run.PostProcess <;> by_cases h3 : context.Image = "" <;>
      simp [hp, h3] at hkv
    subst hkv
    refine ⟨?_, ?_, ?_, ?_⟩ <;> show ("IMAGE" : String) ≠ _ <;> decide

/-- Witness for C5: a chroot script action in the sample world. -/
theorem C5_chroot_env_no_host_keys_witness :
    chrootScriptRun.Chroot = true ∧
    ∃ cmd label cmdline added,
      (chrootScriptRun.doRun sampleWorld sampleContext []).2 =
        [] ++ [Event.exec cmd label cmdline] ∧
      cmd.extraEnv = (sampleWorld.NewChrootCommandForContext sampleContext).extraEnv ++ added ∧
      ∀ kv ∈ added, kv.1 ≠ "RECIPEDIR" ∧ kv.1 ≠ "ARTIFACTDIR" ∧ kv.1 ≠ "ROOTDIR" ∧
        kv.1 ≠ "IMAGEMNTDIR" :=
  ⟨rfl, C5_chroot_env_no_host_keys sampleWorld chrootScriptRun sampleContext [] rfl⟩

/-- C6: in host mode the executed command has `RECIPEDIR` bound to the recipe
directory and `ARTIFACTDIR` to the artifact directory, whatever `PostProcess`
is; `ROOTDIR` and `IMAGEMNTDIR` are unbound when postprocessing; otherwise
`ROOTDIR` is bound to the root directory and `IMAGEMNTDIR` to the image mount
directory when that is non-empty. -/
theorem C6_host_env (W : World) (run : RunAction) (context : DebosContext)
    (tr : List Event) (hc : run.Chroot = false) :
    ∃ cmd label cmdline,
      (run.doRun W context tr).2 = tr ++ [Event.exec cmd label cmdline] ∧
      (∀ v, ("RECIPEDIR", v) ∈ cmd.extraEnv ↔ v = context.RecipeDir) ∧
      (∀ v, ("ARTIFACTDIR", v) ∈ cmd.extraEnv ↔ v = context.Artifactdir) ∧
      (run.PostProcess = true →
        ∀ v, ("ROOTDIR", v) ∉ cmd.extraEnv ∧ ("IMAGEMNTDIR", v) ∉ cmd.extraEnv) ∧
      (run.PostProcess = false →
        (∀ v, ("ROOTDIR", v) ∈ cmd.extraEnv ↔ v = context.Rootdir) ∧
        (context.ImageMntDir ≠ "" →
          ∀ v, ("IMAGEMNTDIR", v) ∈ cmd.extraEnv ↔ v = context.ImageMntDir)) := by
  refine ⟨(run.doRunCall W context).1, (run.doRunCall W context).2.1,
    (run.doRunCall W context).2.2, rfl, ?_⟩
  rw [doRunCall_extraEnv, hc]
  cases run.PostProcess <;> by_cases h2 : context.ImageMntDir = "" <;>
    by_cases h3 : context.Image = "" <;> simp [h2, h3]

/-- Witness for C6: a host-mode inline command in the sample world. -/
theorem C6_host_env_witness :
    hostCommandRun.Chroot = false ∧
    ∃ cmd label cmdline,
      (hostCommandRun.doRun sampleWorld sampleContext []).2 =
        [] ++ [Event.exec cmd label cmdline] ∧
      (∀ v, ("RECIPEDIR", v) ∈ cmd.extraEnv ↔ v = sampleContext.RecipeDir) ∧
      (∀ v, ("ARTIFACTDIR", v) ∈ cmd.extraEnv ↔ v = sampleContext.Artifactdir) ∧
      (hostCommandRun.PostProcess = true →
        ∀ v, ("ROOTDIR", v) ∉ cmd.extraEnv ∧ ("IMAGEMNTDIR", v) ∉ cmd.extraEnv) ∧
      (hostCommandRun.PostProcess = false →
        (∀ v, ("ROOTDIR", v) ∈ cmd.extraEnv ↔ v = sampleContext.Rootdir) ∧
        (sampleContext.ImageMntDir ≠ "" →
          ∀ v, ("IMAGEMNTDIR", v) ∈ cmd.extraEnv ↔ v = sampleContext.ImageMntDir)) :=
  ⟨rfl, C6_host_env sampleWorld hostCommandRun sampleContext [] rfl⟩

/-- C7 (as stated, refuted): a host-mode postprocess action in a context with
image `disk.img` is executed with `RECIPEDIR` and `ARTIFACTDIR` only; `IMAGE` is
not in its environment. -/
theorem C7_image_not_exported_in_postprocess :
    postprocessRun.Chroot = false ∧ postprocessRun.PostProcess = true ∧
    sampleContext.Image = "disk.img" ∧
    execEnvs (postprocessRun.doRun sampleWorld sampleContext []).2 =
      [[("RECIPEDIR", "/recipe"), ("ARTIFACTDIR", "/artifacts")]] ∧
    ("IMAGE", "disk.img") ∉
      [("RECIPEDIR", "/recipe"), ("ARTIFACTDIR", "/artifacts")] := by
  decide

/-- C7 (amended): in host mode with a non-empty image path, the executed
command has `IMAGE` bound to the image path when `PostProcess` is false, and
`IMAGE` is unbound when `PostProcess` is true. -/
theorem C7_host_image_env (W : World) (run : RunAction) (context : DebosContext)
    (tr : List Event) (hc : run.Chroot = false) (hi : context.Image ≠ "") :
    ∃ cmd label cmdline,
      (run.doRun W context tr).2 = tr ++ [Event.exec cmd label cmdline] ∧
      (run.PostProcess = false → ∀ v, ("IMAGE", v) ∈ cmd.extraEnv ↔ v = context.Image) ∧
      (run.PostProcess = true → ∀ v, ("IMAGE", v) ∉ cmd.extraEnv) := by
  refine ⟨(run.doRunCall W context).1, (run.doRunCall W context).2.1,
    (run.doRunCall W context).2.2, rfl, ?_⟩
  rw [doRunCall_extraEnv, hc]
  cases run.PostProcess <;> by_cases h2 : context.ImageMntDir = "" <;> simp [h2, hi]

/-- Witness for C7 (amended): a host-mode inline command in the sample world. -/
theorem C7_host_image_env_witness :
    hostCommandRun.Chroot = false ∧ sampleContext.Image ≠ "" ∧
    ∃ cmd label cmdline,
      (hostCommandRun.doRun sampleWorld sampleContext []).2 =
        [] ++ [Event.exec cmd label cmdline] ∧
      (hostCommandRun.PostProcess = false →
        ∀ v, ("IMAGE", v) ∈ cmd.extraEnv ↔ v = sampleContext.Image) ∧
      (hostCommandRun.PostProcess = true → ∀ v, ("IMAGE", v) ∉ cmd.extraEnv) :=
  ⟨rfl, by decide,
    C7_host_image_env sampleWorld hostCommandRun sampleContext [] rfl (by decide)⟩

/-! ## Run action: chroot script rewriting -/

/-- C8 (evaluation at the failing input): in chroot mode, with a path cleaning
that leaves paths unchanged, the script `/script.sh arg1` gets the bind mount
`/` to `/tmp/script` and the shell command `/tmp/scriptscript.sh arg1`, which is
not `/tmp/script/` followed by the final component `script.sh` and the
arguments; the script `/recipe/sub/script.sh arg1` does get the bind mount
`/recipe/sub` to `/tmp/script` and the command `/tmp/script/script.sh arg1`. -/
theorem C8_root_script_rewrite (W : World) (context : DebosContext) (tr : List Event) :
    (∃ cmd label,
      (RunAction.doRun { W with CleanPathAt := fun p _ => p }
        ⟨true, false, "/script.sh arg1", "", ""⟩ context tr).2 =
        tr ++ [Event.exec cmd label ["sh", "-c", "/tmp/scriptscript.sh arg1"]] ∧
      cmd.bindMounts =
        (W.NewChrootCommandForContext context).bindMounts ++ [("/", "/tmp/script")]) ∧
    path.Base "/script.sh" = "script.sh" ∧
    "/tmp/scriptscript.sh arg1" ≠ "/tmp/script/" ++ path.Base "/script.sh" ++ " arg1" ∧
    (∃ cmd label,
      (RunAction.doRun { W with CleanPathAt := fun p _ => p }
        ⟨true, false, "/recipe/sub/script.sh arg1", "", ""⟩ context tr).2 =
        tr ++ [Event.exec cmd label ["sh", "-c", "/tmp/script/script.sh arg1"]] ∧
      cmd.bindMounts =
        (W.NewChrootCommandForContext context).bindMounts ++
          [("/recipe/sub", "/tmp/script")]) := by
  refine ⟨⟨_, _, rfl, ?_⟩, by decide, by decide, ⟨_, _, rfl, ?_⟩⟩ <;>
    by_cases h3 : context.Image = "" <;>
    simp [RunAction.doRunCall, Command.AddEnvKey, Command.AddBindMount, h3] <;> decide

/-! ## Overlay action -/

/-- C10: when the origin name is non-empty and the registry lookup reports it
as not found, `Run` returns the origin error and adds nothing to the event
log: no directory listing, no guard call, no copy. -/
theorem C10_unknown_origin_fails (W : World) (overlay : OverlayAction)
    (context : DebosContext) (tr : List Event)
    (hname : overlay.Origin ≠ "") (habsent : (context.Origin overlay.Origin).2 = false) :
    overlay.Run W context tr =
      (.returned (some ("Origin not found '" ++ overlay.Origin ++ "'")), tr) := by
  unfold OverlayAction.Run
  rw [if_pos ⟨(string_length_pos_iff _).2 hname, habsent⟩]

/-- Witness for C10: origin `missing` is not registered in the sample context. -/
theorem C10_unknown_origin_fails_witness :
    unknownOriginOverlay.Origin ≠ "" ∧
    (sampleContext.Origin unknownOriginOverlay.Origin).2 = false ∧
    unknownOriginOverlay.Run sampleWorld sampleContext [] =
      (.returned (some ("Origin not found '" ++ unknownOriginOverlay.Origin ++ "'")), []) :=
  ⟨by decide, by decide,
    C10_unknown_origin_fails sampleWorld unknownOriginOverlay sampleContext []
      (by decide) (by decide)⟩

/-- A literal overlay whose destination the guard rejects: `Run` calls the
guard, returns its error and copies nothing. -/
theorem escapingLiteralOverlay_run :
    escapingLiteralOverlay.Run sampleWorld sampleContext [] =
      (.returned (some "The resulting path points outside of prefix"),
        [Event.guard "/scratch/root" "../etc"]) := by
  decide

/-- C11 (evaluation at the failing input): with an empty source and the
registered origin `artifacts`, `Run` stops with a run-time failure in `isGlob`
before any guard call or copy; it neither copies from the origin's path nor
returns. The same happens for every overlay with an empty source whose origin
resolves. -/
theorem C11_empty_source_panics (W : World) (tr : List Event) :
    (sampleContext.Origin emptySourceOverlay.Origin) = ("/artifacts", true) ∧
    emptySourceOverlay.Source = "" ∧
    emptySourceOverlay.Run W sampleContext tr = (.panicked "index out of range [-1]", tr) ∧
    copies (emptySourceOverlay.Run W sampleContext tr).2 = copies tr ∧
    (∀ (overlay : OverlayAction) (context : DebosContext), overlay.Source = "" →
      (overlay.Origin = "" ∨ (context.Origin overlay.Origin).2 = true) →
      overlay.Run W context tr = (.panicked "index out of range [-1]", tr)) := by
  refine ⟨by decide, by decide, rfl, rfl, ?_⟩
  intro overlay context hsrc horigin
  have horig : ¬ (overlay.Origin.length > 0 ∧ (context.Origin overlay.Origin).2 = false) := by
    rintro ⟨h1, h2⟩
    rcases horigin with h | h
    · exact (string_length_pos_iff _).1 h1 h
    · rw [h] at h2
      cases h2
  unfold OverlayAction.Run
  rw [if_neg horig, hsrc]
  rfl

/-! ## Run action: label and command line -/

/-- C15: a non-empty `Label` is the label handed to command execution, for a
script as for an inline command. -/
theorem C15_label_override (W : World) (run : RunAction) (context : DebosContext)
    (tr : List Event) (hl : run.Label ≠ "") :
    ∃ cmd cmdline,
      (run.doRun W context tr).2 = tr ++ [Event.exec cmd (bytesOf run.Label) cmdline] := by
  refine ⟨(run.doRunCall W context).1, (run.doRunCall W context).2.2, ?_⟩
  have h : (run.doRunCall W context).2.1 = bytesOf run.Label := by
    unfold RunAction.doRunCall
    simp [hl]
  simp [RunAction.doRun, h]

/-- Witness for C15: the labelled chroot script action in the sample world. -/
theorem C15_label_override_witness :
    labelledRun.Label ≠ "" ∧
    ∃ cmd cmdline,
      (labelledRun.doRun sampleWorld sampleContext []).2 =
        [] ++ [Event.exec cmd (bytesOf labelledRun.Label) cmdline] :=
  ⟨by decide, C15_label_override sampleWorld labelledRun sampleContext [] (by decide)⟩

/-- C20: the environment `doRun` passes on is the one the command started with
followed by added entries, and `IMAGE` is among the added entries exactly with
the value of the context's image path, when that is non-empty and `PostProcess`
is false; the condition does not mention `Chroot`. -/
theorem C20_image_env (W : World) (run : RunAction) (context : DebosContext)
    (tr : List Event) :
    ∃ cmd label cmdline added,
      (run.doRun W context tr).2 = tr ++ [Event.exec cmd label cmdline] ∧
      cmd.extraEnv =
        (if run.Chroot then (W.NewChrootCommandForContext context).extraEnv else []) ++ added ∧
      ∀ v, ("IMAGE", v) ∈ added ↔
        (v = context.Image ∧ context.Image ≠ "" ∧ run.PostProcess = false) := by
  refine ⟨(run.doRunCall W context).1, (run.doRunCall W context).2.1,
    (run.doRunCall W context).2.2,
    (if run.Chroot then [] else
      [("RECIPEDIR", context.RecipeDir), ("ARTIFACTDIR", context.Artifactdir)]) ++
    (if run.PostProcess then [] else
      (if run.Chroot then [] else
        [("ROOTDIR", context.Rootdir)] ++
        (if context.ImageMntDir = "" then [] else [("IMAGEMNTDIR", context.ImageMntDir)])) ++
      (if context.Image = "" then [] else [("IMAGE", context.Image)])), rfl, ?_, ?_⟩
  · rw [doRunCall_extraEnv, List.append_assoc]
  · intro v
    cases run.Chroot <;> cases run.PostProcess <;>
      by_cases h2 : context.ImageMntDir = "" <;> by_cases h3 : context.Image = "" <;>
      simp [h2, h3]

/-- A cut inside a character: the command `echo 'Готово: образ собран'` has 27
characters and 44 bytes; its label is the first 40 bytes, which end with the
first byte of the two-byte `а`, followed by `...`. -/
theorem label_cut_inside_character :
    execLabels
        (RunAction.doRun sampleWorld ⟨false, false, "", "echo 'Готово: образ собран'", ""⟩
          sampleContext []).2 =
      [bytesOf "echo 'Готово: образ собр" ++ [0xD0] ++ bytesOf "..."] := by
  decide

/-- C12 (as stated, refuted): the single-line command
`écho 0123456789 0123456789 0123456789 abcdefg` has 45 characters, more than 40,
and its label is the first 40 bytes followed by `...`, which are 39 characters
(`é` takes two bytes), not the first 40 characters followed by `...`. -/
theorem C12_label_cut_counts_bytes :
    accentedLongRun.Script = "" ∧ accentedLongRun.Label = "" ∧
    (firstLine (strings.TrimSpace accentedLongRun.Command)).length = 45 ∧
    execLabels (accentedLongRun.doRun sampleWorld sampleContext []).2 =
      [bytesOf "écho 0123456789 0123456789 0123456789 a..."] ∧
    strings.TrimSpace
        ⟨(firstLine (strings.TrimSpace accentedLongRun.Command)).data.take 40⟩ ++ "..." =
      "écho 0123456789 0123456789 0123456789 ab..." ∧
    bytesOf "écho 0123456789 0123456789 0123456789 a..." ≠
      bytesOf "écho 0123456789 0123456789 0123456789 ab..." := by
  decide

/-- C12 (amended): with no script and no label, when the first line of the
trimmed command is longer than 40 bytes, the label is the first 40 bytes of
that line, trimmed, followed by `...`. -/
theorem C12_long_first_line_label (W : World) (run : RunAction) (context : DebosContext)
    (tr : List Event) (hs : run.Script = "") (hl : run.Label = "")
    (hlong : (bytesOf (firstLine (strings.TrimSpace run.Command))).length > 40) :
    ∃ cmd cmdline,
      (run.doRun W context tr).2 =
        tr ++ [Event.exec cmd
          (strings.TrimSpaceBytes
              ((bytesOf (firstLine (strings.TrimSpace run.Command))).take 40) ++
            bytesOf "...") cmdline] := by
  refine ⟨(run.doRunCall W context).1, (run.doRunCall W context).2.2, ?_⟩
  have h := doRunCall_label_command W run context hs hl
  rw [if_pos (by simpa [maxLabelLength] using hlong)] at h
  simp only [RunAction.doRun, h, maxLabelLength]

/-- Witness for C12 (amended): a single-line ASCII command of 55 characters,
which are 55 bytes, gets its first 40 characters followed by `...` as label. -/
theorem C12_long_first_line_label_witness :
    longCommandRun.Script = "" ∧ longCommandRun.Label = "" ∧
    longCommandRun.Command.length = 55 ∧
    (bytesOf (firstLine (strings.TrimSpace longCommandRun.Command))).length = 55 ∧
    strings.TrimSpaceBytes
        ((bytesOf (firstLine (strings.TrimSpace longCommandRun.Command))).take 40) ++
      bytesOf "..." = bytesOf "tar -C /scratch/root -xzf /artifacts/roo..." ∧
    ∃ cmd cmdline,
      (longCommandRun.doRun sampleWorld sampleContext []).2 =
        [] ++ [Event.exec cmd
          (strings.TrimSpaceBytes
              ((bytesOf (firstLine (strings.TrimSpace longCommandRun.Command))).take 40) ++
            bytesOf "...") cmdline] :=
  ⟨rfl, rfl, by decide, by decide, by decide,
    C12_long_first_line_label sampleWorld longCommandRun sampleContext [] rfl rfl
      (by decide)⟩

/-- C13 (as stated, refuted): the command with first line 30 times `é` and
second line `sync` has a first line of 30 characters, at most 40, and its label
is 20 times `é` followed by `...` (the first line has 60 bytes and is cut at
40), not the first line followed by `...`. -/
theorem C13_short_line_cut_at_bytes :
    accentedTwoLineRun.Script = "" ∧ accentedTwoLineRun.Label = "" ∧
    '\n' ∈ (strings.TrimSpace accentedTwoLineRun.Command).data ∧
    firstLine (strings.TrimSpace accentedTwoLineRun.Command) = ⟨List.replicate 30 'é'⟩ ∧
    (firstLine (strings.TrimSpace accentedTwoLineRun.Command)).length = 30 ∧
    execLabels (accentedTwoLineRun.doRun sampleWorld sampleContext []).2 =
      [bytesOf (⟨List.replicate 20 'é'⟩ ++ "...")] ∧
    bytesOf (⟨List.replicate 20 'é'⟩ ++ "...") ≠
      bytesOf (firstLine (strings.TrimSpace accentedTwoLineRun.Command) ++ "...") := by
  decide

/-- C13 (amended): with no script and no label, when the trimmed command has
more than one line, the label ends with `...`; when its first line has at most
40 bytes the label is that first line followed by one `...`. -/
theorem C13_multiline_label (W : World) (run : RunAction) (context : DebosContext)
    (tr : List Event) (hs : run.Script = "") (hl : run.Label = "")
    (hlines : '\n' ∈ (strings.TrimSpace run.Command).data) :
    ∃ cmd label cmdline,
      (run.doRun W context tr).2 = tr ++ [Event.exec cmd label cmdline] ∧
      (∃ pre, label = pre ++ bytesOf "...") ∧
      ((bytesOf (firstLine (strings.TrimSpace run.Command))).length ≤ 40 →
        label = bytesOf (firstLine (strings.TrimSpace run.Command)) ++ bytesOf "...") := by
  refine ⟨(run.doRunCall W context).1, (run.doRunCall W context).2.1,
    (run.doRunCall W context).2.2, rfl, ?_⟩
  have hmany : (strings.Split (strings.TrimSpace run.Command) '\n').length > 1 := by
    simpa [strings.Split] using splitAll_length_of_mem '\n' _ hlines
  rw [doRunCall_label_command W run context hs hl]
  by_cases hlong :
      (bytesOf (firstLine (strings.TrimSpace run.Command))).length > maxLabelLength
  · rw [if_pos hlong]
    refine ⟨⟨_, rfl⟩, ?_⟩
    intro hshort
    simp only [maxLabelLength] at hlong
    omega
  · rw [if_neg hlong, if_pos hmany]
    exact ⟨⟨_, rfl⟩, fun _ => rfl⟩

/-- Witness for C13 (amended): a two-line ASCII command with a short first
line. -/
theorem C13_multiline_label_witness :
    twoLineCommandRun.Script = "" ∧ twoLineCommandRun.Label = "" ∧
    '\n' ∈ (strings.TrimSpace twoLineCommandRun.Command).data ∧
    firstLine (strings.TrimSpace twoLineCommandRun.Command) = "make install" ∧
    execLabels (twoLineCommandRun.doRun sampleWorld sampleContext []).2 =
      [bytesOf "make install..."] ∧
    ∃ cmd label cmdline,
      (twoLineCommandRun.doRun sampleWorld sampleContext []).2 =
        [] ++ [Event.exec cmd label cmdline] ∧
      (∃ pre, label = pre ++ bytesOf "...") ∧
      ((bytesOf (firstLine (strings.TrimSpace twoLineCommandRun.Command))).length ≤ 40 →
        label =
          bytesOf (firstLine (strings.TrimSpace twoLineCommandRun.Command)) ++
            bytesOf "...") :=
  ⟨rfl, rfl, by decide, by decide, by decide,
    C13_multiline_label sampleWorld twoLineCommandRun sampleContext [] rfl rfl (by decide)⟩

/-- C14 (as stated, refuted): the command 30 times `é` is a single line of 30
characters, at most 40, and its label is 20 times `é` followed by `...` (the
line has 60 bytes and is cut at 40), not the command itself. -/
theorem C14_short_command_cut_at_bytes :
    accentedShortRun.Script = "" ∧ accentedShortRun.Label = "" ∧
    '\n' ∉ (strings.TrimSpace accentedShortRun.Command).data ∧
    (strings.TrimSpace accentedShortRun.Command).length = 30 ∧
    execLabels (accentedShortRun.doRun sampleWorld sampleContext []).2 =
      [bytesOf (⟨List.replicate 20 'é'⟩ ++ "...")] ∧
    bytesOf (⟨List.replicate 20 'é'⟩ ++ "...") ≠
      bytesOf (strings.TrimSpace accentedShortRun.Command) := by
  decide

/-- C14 (amended): with no script and no label, when the trimmed command is a
single line of at most 40 bytes, the label is the trimmed command itself. -/
theorem C14_short_single_line_label (W : World) (run : RunAction) (context : DebosContext)
    (tr : List Event) (hs : run.Script = "") (hl : run.Label = "")
    (hsingle : '\n' ∉ (strings.TrimSpace run.Command).data)
    (hshort : (bytesOf (strings.TrimSpace run.Command)).length ≤ 40) :
    ∃ cmd cmdline,
      (run.doRun W context tr).2 =
        tr ++ [Event.exec cmd (bytesOf (strings.TrimSpace run.Command)) cmdline] := by
  refine ⟨(run.doRunCall W context).1, (run.doRunCall W context).2.2, ?_⟩
  have hfirst : firstLine (strings.TrimSpace run.Command) = strings.TrimSpace run.Command := by
    unfold firstLine
    rw [takeWhile_ne_of_not_mem '\n' _ hsingle]
  have hone : ¬ (strings.Split (strings.TrimSpace run.Command) '\n').length > 1 := by
    simp [strings.Split, splitAll_of_not_mem '\n' _ hsingle]
  have h := doRunCall_label_command W run context hs hl
  rw [hfirst, if_neg (by simpa [maxLabelLength] using hshort), if_neg hone] at h
  simp only [RunAction.doRun, h]

/-- Witness for C14 (amended): an ASCII command that, once trimmed, is one line
of exactly 40 characters, which are 40 bytes, is its own label. -/
theorem C14_short_single_line_label_witness :
    fortyCharCommandRun.Script = "" ∧ fortyCharCommandRun.Label = "" ∧
    '\n' ∉ (strings.TrimSpace fortyCharCommandRun.Command).data ∧
    (strings.TrimSpace fortyCharCommandRun.Command).length = 40 ∧
    (bytesOf (strings.TrimSpace fortyCharCommandRun.Command)).length = 40 ∧
    strings.TrimSpace fortyCharCommandRun.Command =
      "systemctl enable systemd-networkd.socket" ∧
    ∃ cmd cmdline,
      (fortyCharCommandRun.doRun sampleWorld sampleContext []).2 =
        [] ++ [Event.exec cmd (bytesOf (strings.TrimSpace fortyCharCommandRun.Command))
          cmdline] :=
  ⟨rfl, rfl, by decide, by decide, by decide, by decide,
    C14_short_single_line_label sampleWorld fortyCharCommandRun sampleContext [] rfl rfl
      (by decide) (by decide)⟩

/-- C16 (evaluation at the failing input): the label of a script action is
`path.Base` of the whole `Script`, arguments included. For the script
`/recipe/sub/script.sh` with argument `/dev/sda` it is `sda`, with argument
`arg1` it is `script.sh arg1`; the final component of the script path is
`script.sh`. -/
theorem C16_label_is_base_of_script_with_arguments (W : World) (context : DebosContext)
    (tr : List Event) :
    (∃ cmd cmdline,
      (deviceScriptRun.doRun W context tr).2 =
        tr ++ [Event.exec cmd (bytesOf "sda") cmdline]) ∧
    (∃ cmd cmdline,
      (hostScriptRun.doRun W context tr).2 =
        tr ++ [Event.exec cmd (bytesOf "script.sh arg1") cmdline]) ∧
    beforeSpace deviceScriptRun.Script = "/recipe/sub/script.sh" ∧
    beforeSpace hostScriptRun.Script = "/recipe/sub/script.sh" ∧
    path.Base "/recipe/sub/script.sh" = "script.sh" ∧
    bytesOf "sda" ≠ bytesOf "script.sh" ∧
    bytesOf "script.sh arg1" ≠ bytesOf "script.sh" ∧
    (∀ run : RunAction, run.Script ≠ "" → run.Label = "" →
      ∃ cmd cmdline,
        (run.doRun W context tr).2 =
          tr ++ [Event.exec cmd (bytesOf (path.Base run.Script)) cmdline]) := by
  refine ⟨⟨_, _, rfl⟩, ⟨_, _, rfl⟩, by decide, by decide, by decide, by decide, by decide,
    ?_⟩
  intro run hs hl
  refine ⟨(run.doRunCall W context).1, (run.doRunCall W context).2.2, ?_⟩
  have h : (run.doRunCall W context).2.1 = bytesOf (path.Base run.Script) := by
    unfold RunAction.doRunCall
    simp [hs, hl]
  simp [RunAction.doRun, h]

/-- C17: the command line handed to command execution is `sh`, `-c` and one
string: the inline command as it is when no script is set; otherwise the
resolved script path, followed by a single space and the arguments when the
script has arguments. -/
theorem C17_command_line (W : World) (run : RunAction) (context : DebosContext)
    (tr : List Event) :
    ∃ cmd label s,
      (run.doRun W context tr).2 = tr ++ [Event.exec cmd label ["sh", "-c", s]] ∧
      (run.Script = "" → s = run.Command) ∧
      (run.Script ≠ "" → ' ' ∉ run.Script.data →
        s = resolvedScript W run context run.Script) ∧
      (∀ P A : String, run.Script = P ++ " " ++ A → ' ' ∉ P.data →
        s = resolvedScript W run context P ++ " " ++ A) := by
  by_cases hs : run.Script = ""
  · refine ⟨(run.doRunCall W context).1, (run.doRunCall W context).2.1, run.Command, ?_,
      fun _ => rfl, fun h => absurd hs h, ?_⟩
    · have h : (run.doRunCall W context).2.2 = ["sh", "-c", run.Command] := by
        unfold RunAction.doRunCall
        simp [hs]
      simp [RunAction.doRun, h]
    · intro P A hPA
      rw [hPA] at hs
      have := congrArg String.length hs
      simp only [String.length_append] at this
      have h1 : (" " : String).length = 1 := rfl
      have h0 : ("" : String).length = 0 := rfl
      omega
  · by_cases hsp : ' ' ∈ run.Script.data
    · obtain ⟨l, r, hl, hlr⟩ : ∃ l r, ' ' ∉ l ∧ run.Script.data = l ++ ' ' :: r := by
        obtain ⟨l, r, hlr, hl⟩ := List.eq_append_cons_of_mem hsp
        exact ⟨l, r, hl, hlr⟩
      have hscript : run.Script = (⟨l⟩ : String) ++ " " ++ ⟨r⟩ := by
        apply String.ext
        simp [String.data_append, hlr]
      have hsplit := SplitN_two_append ⟨l⟩ ⟨r⟩ hl
      rw [← hscript] at hsplit
      refine ⟨(run.doRunCall W context).1, (run.doRunCall W context).2.1,
        resolvedScript W run context ⟨l⟩ ++ " " ++ ⟨r⟩, ?_, fun h => absurd h hs,
        fun _ h => absurd hsp h, ?_⟩
      · have h : (run.doRunCall W context).2.2 =
            ["sh", "-c", resolvedScript W run context ⟨l⟩ ++ " " ++ ⟨r⟩] := by
          unfold RunAction.doRunCall resolvedScript
          cases run.Chroot <;> simp [hs, hsplit, strings.Join]
        simp [RunAction.doRun, h]
      · intro P A hPA hP
        have hd : l ++ ' ' :: r = P.data ++ ' ' :: A.data := by
          rw [← hlr, hPA]
          simp [String.data_append]
        have hcut : cutAt ' ' (l ++ ' ' :: r) = cutAt ' ' (P.data ++ ' ' :: A.data) := by
          rw [hd]
        rw [cutAt_append ' ' l r hl, cutAt_append ' ' P.data A.data hP] at hcut
        simp only [Option.some.injEq, Prod.mk.injEq] at hcut
        have hP' : (⟨l⟩ : String) = P := String.ext hcut.1
        have hA' : (⟨r⟩ : String) = A := String.ext hcut.2
        rw [hP', hA']
    · have hsplit := SplitN_two_of_not_mem run.Script hsp
      refine ⟨(run.doRunCall W context).1, (run.doRunCall W context).2.1,
        resolvedScript W run context run.Script, ?_, fun h => absurd h hs, fun _ _ => rfl, ?_⟩
      · have h : (run.doRunCall W context).2.2 =
            ["sh", "-c", resolvedScript W run context run.Script] := by
          unfold RunAction.doRunCall resolvedScript
          cases run.Chroot <;> simp [hs, hsplit, strings.Join]
        simp [RunAction.doRun, h]
      · intro P A hPA _
        exfalso
        apply hsp
        rw [hPA]
        simp [String.data_append]

/-- C19: `PreMachine` returns no error; with an empty script it logs nothing
and leaves the action as it is; with `PostProcess` set it registers no volume;
otherwise it registers exactly one volume, the directory of the part of the
cleaned `Script` before its first space. -/
theorem C19_premachine_volume (W : World) (run : RunAction) (context : DebosContext)
    (tr : List Event) :
    (run.PreMachine W context tr).2.1 = none ∧
    (run.Script = "" → run.PreMachine W context tr = (run, none, tr)) ∧
    (run.PostProcess = true → (run.PreMachine W context tr).2.2 = tr) ∧
    (run.Script ≠ "" → run.PostProcess = false →
      (run.PreMachine W context tr).2.2 =
        tr ++ [Event.addVolume
          (path.Dir (beforeSpace (W.CleanPathAt run.Script context.RecipeDir)))]) := by
  unfold RunAction.PreMachine beforeSpace
  simp only [split_headD]
  by_cases hs : run.Script = "" <;> cases hp : run.PostProcess <;> simp [hs, hp]

/-! ## Overlay action: source of the wildcard copies -/

/-- C18 (evaluation at the failing input): for the wildcard source `overlays/*`
taken from the recipe directory `/recipe`, `Run` lists the directory
`overlays/` and copies from `/recipe/a` and `/recipe/b`, the origin joined with
each name, and not from `overlays/a` and `overlays/b`, the listed directory
joined with each name. -/
theorem C18_wildcard_copy_sources :
    isGlob wildcardOverlay.Source = some true ∧
    wildcardOverlay.Run sampleWorld sampleContext [] =
      (.returned none,
        [Event.readDir "overlays/",
          Event.guard "/scratch/root" "/etc", Event.copyTree "/recipe/a" "/scratch/root/etc",
          Event.guard "/scratch/root" "/etc", Event.copyTree "/recipe/b" "/scratch/root/etc"]) ∧
    (copies (wildcardOverlay.Run sampleWorld sampleContext []).2).map Prod.fst =
      ["/recipe/a", "/recipe/b"] ∧
    path.Join ["overlays/", "a"] = "overlays/a" ∧
    path.Join ["overlays/", "b"] = "overlays/b" := by
  decide

end Debos
